import Mathlib

set_option maxHeartbeats 1000000
set_option maxRecDepth 8000

/-!
Shallow embedding of the entropy-coding core of the repository:
`src/lib.rs` (Golomb-Rice codec over packed bytes), `src/custom_encode.rs`
(signed Golomb codec over an unpacked bit vector), `src/huffman.rs`
(Huffman tree builder and code generation) and `src/histogram.rs`
(histogram with full-range CSV export).

Conventions:
* Machine integers (`u8`, `u32`, `usize`) are modelled as `ℕ`.  In every state
  the functions below reach on the inputs the theorems quantify over, the `u8`
  values stay below 256, so no wrap-around is modelled except where a comment
  says otherwise.
* A Rust panic (index out of bounds, `Option::unwrap` on `None`) is modelled by
  the result `none`; a normal return is `some`.
* `while` loops are modelled by fuel-indexed recursion; the fuel passed at each
  call site provably dominates the number of iterations, so the fuel-exhausted
  branch is unreachable on the inputs the theorems mention.
-/

namespace EET51

/-- The loop `let mut b = 0; while (1 << b) < m { b += 1 }` that appears in
`golomb_encode_inner`, `golomb_decode`, `custom_encode_inner` and
`custom_decode`: fuel-indexed tail recursion. -/
def bWidthGo : ℕ → ℕ → ℕ → ℕ
  | 0, b, _ => b
  | fuel + 1, b, m => if 1 <<< b < m then bWidthGo fuel (b + 1) m else b

/-- `b` as computed from `m` by the source loop.  Fuel `m + 1` dominates the
iteration count: the loop runs at most `log2 m + 1 ≤ m` times for `m ≥ 1` and
zero times for `m ≤ 1`. -/
def bWidth (m : ℕ) : ℕ := bWidthGo (m + 1) 0 m

/-- `for i in (0..b).rev() { encoded_bits.push((r >> i) & 1); }` — the `b`-bit
big-endian binary field of `r`, as a list of bit values. -/
def binBits (r : ℕ) : ℕ → List ℕ
  | 0 => []
  | b + 1 => ((r >>> b) &&& 1) :: binBits r b

/-- The bits `golomb_encode_inner` emits for one magnitude `n`:
unary quotient (`q` zeros then a one) followed by the truncated-binary
remainder field. -/
def golombEncodeSym (m b n : ℕ) : List ℕ :=
  List.replicate (n / m) 0 ++ 1 ::
    (if n % m < m then binBits (n % m) b else binBits (n % m + m) (b + 1))

/-- The logical bitstream produced by the loop of `golomb_encode_inner`
(before byte packing). -/
def golomb_encode_bits (data : List ℕ) (m : ℕ) : List ℕ :=
  (data.map (golombEncodeSym m (bWidth m))).flatten

/-- `pack_bits` inner loop: `current_byte = (current_byte << 1) | bit`, push a
byte every 8 bits, and left-shift-pad the final partial byte.  The `% 256`
mirrors the `u8` width of `current_byte` (never hit, since the byte is pushed
as soon as 8 bits accumulate). -/
def packBitsGo : List ℕ → ℕ → ℕ → List ℕ
  | [], cur, cnt => if cnt = 0 then [] else [(cur <<< (8 - cnt)) % 256]
  | bit :: rest, cur, cnt =>
    let cur2 := ((cur <<< 1) ||| bit) % 256
    if cnt + 1 = 8 then cur2 :: packBitsGo rest 0 0
    else packBitsGo rest cur2 (cnt + 1)

/-- `pack_bits` from `src/lib.rs`: group bits MSB-first into bytes, zero-padding
the trailing partial byte. -/
def pack_bits (encoded_bits : List ℕ) : List ℕ := packBitsGo encoded_bits 0 0

/-- `golomb_encode_inner` from `src/lib.rs`: Golomb-encode each magnitude and
pack the bitstream into bytes. -/
def golomb_encode_inner (data : List ℕ) (m : ℕ) : List ℕ :=
  pack_bits (golomb_encode_bits data m)

/-- `data[i / 8] & (1 << (7 - (i % 8)))` as a `Bool` (`true` when the masked
bit is set); `none` when `i / 8` is out of bounds, which in Rust is a panic. -/
def bitSet? (data : List ℕ) (i : ℕ) : Option Bool :=
  (data.get? (i / 8)).map (fun byte => byte &&& (1 <<< (7 - i % 8)) ≠ 0)

/-- The unary-quotient scan of `golomb_decode`:
`while data[i/8] & mask == 0 { q += 1; i += 1; if i >= total { return decoded } }`
followed by `i += 1` for the terminating one bit.
`Sum.inl acc` models the early `return decoded_bits`; `Sum.inr (q, i)` is normal
loop exit with the index just past the terminator. -/
def golombQScan (data : List ℕ) (total : ℕ) (acc : List ℕ) :
    ℕ → ℕ → ℕ → Option (List ℕ ⊕ ℕ × ℕ)
  | 0, _, _ => none
  | fuel + 1, idx, q =>
    match bitSet? data idx with
    | none => none
    | some s =>
      if s then some (Sum.inr (q, idx + 1))
      else
        if idx + 1 ≥ total then some (Sum.inl acc)
        else golombQScan data total acc fuel (idx + 1) (q + 1)

/-- The remainder field read of `golomb_decode`:
`for _ in 0..b { r <<= 1; if bit set { r |= 1 }; i += 1; if i >= total { return decoded } }`.
Note the early return fires even on the final iteration, after the last
remainder bit of the buffer has been read but before the decoded value is
pushed.  `Sum.inl acc` models that early `return decoded_bits`. -/
def golombReadR (data : List ℕ) (total : ℕ) (acc : List ℕ) :
    ℕ → ℕ → ℕ → Option (List ℕ ⊕ ℕ × ℕ)
  | 0, idx, r => some (Sum.inr (r, idx))
  | k + 1, idx, r =>
    match bitSet? data idx with
    | none => none
    | some s =>
      let r2 := if s then (r <<< 1) ||| 1 else r <<< 1
      if idx + 1 ≥ total then some (Sum.inl acc)
      else golombReadR data total acc k (idx + 1) r2

/-- The outer `while bit_index < data.len() * 8` loop of `golomb_decode`.
Each iteration consumes at least the terminating one bit, so fuel
`total + 1` dominates the iteration count. -/
def golombDecodeGo (m b : ℕ) (data : List ℕ) (total : ℕ) :
    ℕ → ℕ → List ℕ → Option (List ℕ)
  | 0, _, _ => none
  | fuel + 1, idx, acc =>
    if idx < total then
      match golombQScan data total acc (total + 1) idx 0 with
      | none => none
      | some (Sum.inl acc2) => some acc2
      | some (Sum.inr (q, idx1)) =>
        match golombReadR data total acc b idx1 0 with
        | none => none
        | some (Sum.inl acc2) => some acc2
        | some (Sum.inr (r, idx2)) =>
          golombDecodeGo m b data total fuel idx2 (acc ++ [q * m + r])
    else some acc

/-- `golomb_decode` from `src/lib.rs`.  `none` models a Rust panic (the
remainder loop indexing one byte past the end of the buffer); `some` is the
`Vec<u8>` the function returns, including the silently-truncated early
returns. -/
def golomb_decode (m : ℕ) (data : List ℕ) : Option (List ℕ) :=
  golombDecodeGo m (bWidth m) data (data.length * 8) (data.length * 8 + 1) 0 []

/-- `CustomPixel` from `src/custom_encode.rs`: a sign flag and an unsigned
magnitude (`u8`, modelled as `ℕ`). -/
structure CustomPixel where
  sign : Bool
  value : ℕ
deriving DecidableEq

/-- The bits `custom_encode_inner` pushes for one pixel: the literal sign bit,
the unary quotient (`q` zeros then a one), and the truncated-binary remainder
field. -/
def customEncodeSym (m b : ℕ) (p : CustomPixel) : List ℕ :=
  (cond p.sign 1 0) ::
    (List.replicate (p.value / m) 0 ++ 1 ::
      (if p.value % m < m then binBits (p.value % m) b
       else binBits (p.value % m + m) (b + 1)))

/-- `custom_encode_inner` from `src/custom_encode.rs`: the unpacked bit vector
(one `u8` per bit) for a sequence of signed pixels. -/
def custom_encode_inner (data : List CustomPixel) (m : ℕ) : List ℕ :=
  (data.map (customEncodeSym m (bWidth m))).flatten

/-- The quotient scan of `custom_decode`:
`while data[i] == 0 { q += 1; i += 1 }` then `i += 1`.  The slice index has no
bounds check, so running off the end of the bit vector is a panic (`none`). -/
def customQScan : List ℕ → ℕ → Option (ℕ × List ℕ)
  | [], _ => none
  | bit :: rest, q => if bit = 0 then customQScan rest (q + 1) else some (q, rest)

/-- The remainder read of `custom_decode`:
`for j in 0..b { r |= data[i + j] << (b - j - 1) }; i += b` — the first bit is
shifted by `b - 1`, the last by `0`.  Unchecked indexing: `none` is the
out-of-bounds panic. -/
def customReadR : ℕ → ℕ → List ℕ → Option (ℕ × List ℕ)
  | r, 0, rest => some (r, rest)
  | _, _ + 1, [] => none
  | r, k + 1, bit :: rest => customReadR (r ||| (bit <<< k)) k rest

/-- The `while i < data.len()` loop of `custom_decode`.  Each iteration
consumes at least the sign bit, so fuel `data.length + 1` dominates the
iteration count. -/
def customDecodeGo (m b : ℕ) : ℕ → List ℕ → List CustomPixel → Option (List CustomPixel)
  | 0, rest, acc => if rest = [] then some acc else none
  | _ + 1, [], acc => some acc
  | fuel + 1, sbit :: rest, acc =>
    let sign := sbit == 1
    match customQScan rest 0 with
    | none => none
    | some (q, rest1) =>
      match customReadR 0 b rest1 with
      | none => none
      | some (r0, rest2) =>
        let r := if r0 ≥ m then r0 - m else r0
        customDecodeGo m b fuel rest2 (acc ++ [⟨sign, q * m + r⟩])

/-- `custom_decode` from `src/custom_encode.rs`: decode an unpacked bit vector
back into signed pixels.  `none` models the out-of-bounds panics of the
unchecked slice indexing. -/
def custom_decode (data : List ℕ) (m : ℕ) : Option (List CustomPixel) :=
  customDecodeGo m (bWidth m) (data.length + 1) data []

/-! ### Huffman coding, from `src/huffman.rs` -/

/-- `HuffmanNode<T>` from `src/huffman.rs`. -/
inductive HuffmanNode (T : Type) where
  | internal (left : HuffmanNode T) (right : HuffmanNode T)
  | leaf (value : T) (frequency : ℕ)
deriving DecidableEq

/-- The `Ord` impl on `HuffmanNode`: `Internal` is always less than `Leaf`,
two `Internal`s are equal, two `Leaf`s compare by frequency. -/
def nodeCmp {T : Type} : HuffmanNode T → HuffmanNode T → Ordering
  | .internal _ _, .leaf _ _ => .lt
  | .leaf _ _, .internal _ _ => .gt
  | .internal _ _, .internal _ _ => .eq
  | .leaf _ f1, .leaf _ f2 => compare f1 f2

/-- The derived lexicographic `Ord` on the heap entries
`(Reverse(freq), node)`: `Reverse` flips the frequency comparison, ties fall
through to the node comparator. -/
def entryCmp {T : Type} : ℕ × HuffmanNode T → ℕ × HuffmanNode T → Ordering
  | (f1, n1), (f2, n2) =>
    match compare f2 f1 with
    | .eq => nodeCmp n1 n2
    | o => o

/-- Remove the first occurrence of `x` from a list. -/
def eraseFirst {α : Type} [DecidableEq α] (x : α) : List α → List α
  | [] => []
  | y :: ys => if y = x then ys else y :: eraseFirst x ys

/-- Model of `std::collections::BinaryHeap::pop` for the comparator `cmp`:
remove and return a greatest element.  Which of several comparing-equal
greatest elements Rust's sift order yields is unspecified; this model
deterministically takes the first one in the backing list.  No theorem below
depends on the tie order. -/
def heapPop {α : Type} [DecidableEq α] (cmp : α → α → Ordering) :
    List α → Option (α × List α)
  | [] => none
  | x :: xs =>
    let best := xs.foldl (fun b y => if cmp y b = .gt then y else b) x
    some (best, eraseFirst best (x :: xs))

/-- Insert one value into the `BTreeMap<T, u32>` histogram
(`histogram.entry(val).or_insert(0) += 1`), keeping keys sorted. -/
def histInsert {T : Type} [LinearOrder T] (v : T) : List (T × ℕ) → List (T × ℕ)
  | [] => [(v, 1)]
  | (k, c) :: rest =>
    if v = k then (k, c + 1) :: rest
    else if v < k then (v, 1) :: (k, c) :: rest
    else (k, c) :: histInsert v rest

/-- `build_histogram` from `src/huffman.rs`: the `BTreeMap<T, u32>` of symbol
counts, modelled as an association list sorted by key (the map's iteration
order). -/
def build_histogram {T : Type} [LinearOrder T] (data : List T) : List (T × ℕ) :=
  data.foldl (fun h v => histInsert v h) []

/-- The `while heap.len() > 1` merge loop of `build_huffman_tree`.  Each
iteration pops two nodes and pushes one, so fuel `initial length` dominates the
iteration count. -/
def huffLoop {T : Type} [DecidableEq T] :
    ℕ → List (ℕ × HuffmanNode T) → List (ℕ × HuffmanNode T)
  | 0, heap => heap
  | fuel + 1, heap =>
    if heap.length > 1 then
      match heapPop entryCmp heap with
      | none => heap
      | some ((f1, left), h1) =>
        match heapPop entryCmp h1 with
        | none => heap
        | some ((f2, right), h2) =>
          huffLoop fuel ((f1 + f2, HuffmanNode.internal left right) :: h2)
    else heap

/-- `build_huffman_tree` from `src/huffman.rs`: seed a priority queue with one
leaf per histogram entry, merge the two lowest-frequency nodes until one
remains.  The final `heap.pop().unwrap()` panics on an empty histogram,
modelled as `none`. -/
def build_huffman_tree {T : Type} [DecidableEq T] (data : List (T × ℕ)) :
    Option (HuffmanNode T) :=
  let heap := data.map (fun e => (e.2, HuffmanNode.leaf e.1 e.2))
  (heapPop entryCmp (huffLoop data.length heap)).map (fun e => e.1.2)

/-- `HashMap::insert`: replace the value of an existing key, else add the
entry (modelled in a stable association-list order; the theorems below only
use membership, never entry order). -/
def mapInsert {T : Type} [DecidableEq T] (key : T) (val : List ℕ) :
    List (T × List ℕ) → List (T × List ℕ)
  | [] => [(key, val)]
  | (k, v) :: rest =>
    if k = key then (k, val) :: rest else (k, v) :: mapInsert key val rest

/-- `HashMap::get` on the code table. -/
def mapGet {T : Type} [DecidableEq T] : List (T × List ℕ) → T → Option (List ℕ)
  | [], _ => none
  | (k, v) :: rest, key => if key = k then some v else mapGet rest key

/-- `generate_codes` from `src/huffman.rs`: traverse the tree, appending `0`
for left and `1` for right, and record the accumulated code at each leaf. -/
def generate_codes {T : Type} [DecidableEq T] :
    HuffmanNode T → List ℕ → List (T × List ℕ) → List (T × List ℕ)
  | .internal left right, current_code, codes =>
    generate_codes right (current_code ++ [1])
      (generate_codes left (current_code ++ [0]) codes)
  | .leaf v _, current_code, codes => mapInsert v current_code codes

/-- `huffman_encode` from `src/huffman.rs`: build histogram, tree and code
table, then concatenate the code of every input symbol (symbols missing from
the table are silently skipped by the `if let`).  `none` is the panic of
`build_huffman_tree` on empty input. -/
def huffman_encode {T : Type} [LinearOrder T] (data : List T) : Option (List ℕ) :=
  match build_huffman_tree (build_histogram data) with
  | none => none
  | some tree =>
    let code_map := generate_codes tree [] []
    some (data.foldl
      (fun result byte =>
        match mapGet code_map byte with
        | some code => result ++ code
        | none => result)
      [])

/-! ### Variants of the encoders with the `otherwise` remainder branch removed,
used to state that the branch is unreachable (claim C5). -/

/-- `golombEncodeSym` with the `else` arm of the truncated-binary remainder
encoding deleted: always emit `r` as a `b`-bit field. -/
def golombEncodeSymTrunc (m b n : ℕ) : List ℕ :=
  List.replicate (n / m) 0 ++ 1 :: binBits (n % m) b

/-- `golomb_encode_bits` built from `golombEncodeSymTrunc`. -/
def golomb_encode_bits_trunc (data : List ℕ) (m : ℕ) : List ℕ :=
  (data.map (golombEncodeSymTrunc m (bWidth m))).flatten

/-- `customEncodeSym` with the `else` arm of the remainder encoding deleted. -/
def customEncodeSymTrunc (m b : ℕ) (p : CustomPixel) : List ℕ :=
  (cond p.sign 1 0) ::
    (List.replicate (p.value / m) 0 ++ 1 :: binBits (p.value % m) b)

/-- `custom_encode_inner` built from `customEncodeSymTrunc`. -/
def custom_encode_inner_trunc (data : List CustomPixel) (m : ℕ) : List ℕ :=
  (data.map (customEncodeSymTrunc m (bWidth m))).flatten

/-! ### Claim theorems -/

/-- Claim C5 (confirmed): for every `m ≥ 1` the Euclidean remainder `v % m` is
always `< m`, so the `otherwise` branch of the truncated-binary remainder
encoding (which would emit `r + m` in `b + 1` bits) is unreachable in both
encoders: they emit exactly the same bitstreams as the variants with that
branch deleted.  In particular this holds for every power-of-two `m ≥ 1`. -/
theorem golomb_otherwise_branch_unreachable (m : ℕ) (hm : 1 ≤ m) :
    (∀ v : ℕ, v % m < m) ∧
    (∀ data : List ℕ, golomb_encode_bits data m = golomb_encode_bits_trunc data m) ∧
    (∀ data : List CustomPixel,
      custom_encode_inner data m = custom_encode_inner_trunc data m) := by
  have hmod : ∀ v : ℕ, v % m < m := fun v => Nat.mod_lt v hm
  have hsym : ∀ b n, golombEncodeSym m b n = golombEncodeSymTrunc m b n := by
    intro b n
    unfold golombEncodeSym golombEncodeSymTrunc
    rw [if_pos (hmod n)]
  have hcsym : ∀ b p, customEncodeSym m b p = customEncodeSymTrunc m b p := by
    intro b p
    unfold customEncodeSym customEncodeSymTrunc
    rw [if_pos (hmod p.value)]
  refine ⟨hmod, fun data => ?_, fun data => ?_⟩
  · simp only [golomb_encode_bits, golomb_encode_bits_trunc]
    rw [funext (hsym (bWidth m))]
  · simp only [custom_encode_inner, custom_encode_inner_trunc]
    rw [funext (hcsym (bWidth m))]

/-- Witness for `golomb_otherwise_branch_unreachable` at `m = 8`,
`data = [21, 21]` and a signed pixel sequence. -/
theorem golomb_otherwise_branch_unreachable_witness :
    (1 ≤ 8 ∧ 21 % 8 < 8) ∧
    golomb_encode_bits [21, 21] 8 = golomb_encode_bits_trunc [21, 21] 8 ∧
    custom_encode_inner [⟨true, 21⟩] 8 = custom_encode_inner_trunc [⟨true, 21⟩] 8 := by
  have h := golomb_otherwise_branch_unreachable 8 (by decide)
  exact ⟨⟨by decide, h.1 21⟩, h.2.1 [21, 21], h.2.2 [⟨true, 21⟩]⟩

/-- Claim C6 (confirmed): Scenario 1 — encoding the magnitude sequence
`[21, 21, 21, 21]` with `m = 8` (so `b = 3`) and packing the bits MSB-first
with zero padding yields exactly the bytes
`[0b00110100, 0b11010011, 0b01001101]`. -/
theorem golomb_scenario1 :
    golomb_encode_inner [21, 21, 21, 21] 8 = [0b00110100, 0b11010011, 0b01001101] := by
  decide

/-- Claim C1 (code bug): the Golomb round trip fails.  Encoding `[7, 7]` with
`m = 8` produces the 8-bit stream `11111111`, packed as the single byte
`0b11111111`; decoding it returns `[7]`, dropping the second value, because the
early-return check inside the remainder loop of `golomb_decode` fires after the
last remainder bit of the buffer is read but before the reconstructed value is
pushed.  The claim (and the encoder's documented intent) requires `[7, 7]`. -/
theorem golomb_roundtrip_drops_last_value :
    golomb_encode_inner [7, 7] 8 = [0b11111111] ∧
    golomb_decode 8 (golomb_encode_inner [7, 7] 8) = some [7] ∧
    golomb_decode 8 (golomb_encode_inner [7, 7] 8) ≠ some [7, 7] := by
  refine ⟨by decide, by decide, by decide⟩

/-- Claim C2 (code bug): the decoders do not fail with an insufficient-bits
error value on truncated input.  `golomb_decode` has return type `Vec<u8>` with
no error channel at all: on the buffer `[0b00000000]`, which contains no
terminating one bit, it silently returns the empty vector (`some []`, a normal
return); on `[0b00000001]`, whose unary terminator is the last bit of the
buffer, its remainder loop indexes `data[1]`, one byte past the end — a panic
(`none` in this model).  `custom_decode` on the one-bit slice `[0]` (a sign bit
followed by nothing) indexes past the end of the slice in its unchecked
quotient scan — also a panic. -/
theorem decode_truncated_is_not_an_error_value :
    golomb_decode 8 [0b00000000] = some [] ∧
    golomb_decode 8 [0b00000001] = none ∧
    custom_decode [0] 2 = none := by
  refine ⟨by decide, by decide, by decide⟩

/-- Claim C3 (code bug): on the empty input the Huffman tree construction does
not return a caller-visible error value: `build_huffman_tree` seeds an empty
heap and its final `heap.pop().unwrap()` panics (`none` in this model), and so
does `huffman_encode` of the empty stream.  (`golomb_encode` on empty input,
for its part, divides `0.0 / 0.0` in `f32`, obtains `NaN`, and silently returns
`(m = 1, [])` with no error — floating point, so only the Huffman half is
evaluated here.) -/
theorem huffman_empty_input_panics :
    build_huffman_tree (build_histogram ([] : List ℕ)) = none ∧
    huffman_encode ([] : List ℕ) = none := by
  refine ⟨by decide, by decide⟩

/-! ### Prefix-freeness of the Huffman code table (claim C7) -/

/-- All `(value, accumulated code)` pairs at the leaves of a tree, in traversal
order: the codes `generate_codes` records, before the `HashMap` deduplicates
values. -/
def leafPaths {T : Type} : HuffmanNode T → List ℕ → List (T × List ℕ)
  | .leaf v _, code => [(v, code)]
  | .internal l r, code => leafPaths l (code ++ [0]) ++ leafPaths r (code ++ [1])

theorem mem_mapInsert {T : Type} [DecidableEq T] {key : T} {val c : List ℕ} {s : T} :
    ∀ {l : List (T × List ℕ)}, (s, c) ∈ mapInsert key val l →
      (s, c) = (key, val) ∨ (s, c) ∈ l := by
  intro l
  induction l with
  | nil => intro h; simpa [mapInsert] using h
  | cons e rest ih =>
    obtain ⟨k, v⟩ := e
    intro h
    simp only [mapInsert] at h
    by_cases hk : k = key
    · rw [if_pos hk] at h
      rcases List.mem_cons.mp h with h1 | h1
      · subst hk; exact Or.inl h1
      · exact Or.inr (List.mem_cons_of_mem _ h1)
    · rw [if_neg hk] at h
      rcases List.mem_cons.mp h with h1 | h1
      · exact Or.inr (List.mem_cons.mpr (Or.inl h1))
      · rcases ih h1 with h2 | h2
        · exact Or.inl h2
        · exact Or.inr (List.mem_cons_of_mem _ h2)

/-- Every entry `generate_codes` adds is a leaf path of the tree; the rest come
from the accumulator map. -/
theorem mem_generate_codes {T : Type} [DecidableEq T] :
    ∀ (t : HuffmanNode T) (code : List ℕ) (codes : List (T × List ℕ))
      (s : T) (c : List ℕ), (s, c) ∈ generate_codes t code codes →
      (s, c) ∈ leafPaths t code ∨ (s, c) ∈ codes := by
  intro t
  induction t with
  | leaf v f =>
    intro code codes s c h
    simp only [generate_codes] at h
    rcases mem_mapInsert h with h1 | h1
    · exact Or.inl (by simp [leafPaths, h1])
    · exact Or.inr h1
  | internal l r ihl ihr =>
    intro code codes s c h
    simp only [generate_codes] at h
    rcases ihr _ _ _ _ h with h1 | h1
    · exact Or.inl (by simp [leafPaths, h1])
    · rcases ihl _ _ _ _ h1 with h2 | h2
      · exact Or.inl (by simp [leafPaths, h2])
      · exact Or.inr h2

/-- Every leaf path extends the accumulated code. -/
theorem leafPaths_extend {T : Type} :
    ∀ (t : HuffmanNode T) (code : List ℕ) (s : T) (c : List ℕ),
      (s, c) ∈ leafPaths t code → ∃ p, c = code ++ p := by
  intro t
  induction t with
  | leaf v f =>
    intro code s c h
    simp only [leafPaths, List.mem_singleton, Prod.mk.injEq] at h
    exact ⟨[], by simp [h.2]⟩
  | internal l r ihl ihr =>
    intro code s c h
    simp only [leafPaths, List.mem_append] at h
    rcases h with h | h
    · obtain ⟨p, hp⟩ := ihl _ _ _ h
      exact ⟨0 :: p, by simp [hp]⟩
    · obtain ⟨p, hp⟩ := ihr _ _ _ h
      exact ⟨1 :: p, by simp [hp]⟩

/-- Two leaf paths of the same tree where one is a prefix of the other are the
same entry: a leaf has no descendants, so no leaf path properly extends
another. -/
theorem leafPaths_prefix_eq {T : Type} :
    ∀ (t : HuffmanNode T) (code : List ℕ) (s₁ s₂ : T) (c₁ c₂ : List ℕ),
      (s₁, c₁) ∈ leafPaths t code → (s₂, c₂) ∈ leafPaths t code →
      c₁ <+: c₂ → (s₁, c₁) = (s₂, c₂) := by
  intro t
  induction t with
  | leaf v f =>
    intro code s₁ s₂ c₁ c₂ h1 h2 _
    simp only [leafPaths, List.mem_singleton, Prod.mk.injEq] at h1 h2
    simp [h1.1, h1.2, h2.1, h2.2]
  | internal l r ihl ihr =>
    intro code s₁ s₂ c₁ c₂ h1 h2 hpre
    simp only [leafPaths, List.mem_append] at h1 h2
    rcases h1 with h1 | h1 <;> rcases h2 with h2 | h2
    · exact ihl _ _ _ _ _ h1 h2 hpre
    · obtain ⟨p1, hp1⟩ := leafPaths_extend _ _ _ _ h1
      obtain ⟨p2, hp2⟩ := leafPaths_extend _ _ _ _ h2
      rw [hp1, hp2, List.append_assoc, List.append_assoc] at hpre
      have := (List.prefix_append_right_inj code).mp hpre
      simp only [List.cons_append, List.nil_append] at this
      exact absurd (List.cons_prefix_cons.mp this).1 (by decide)
    · obtain ⟨p1, hp1⟩ := leafPaths_extend _ _ _ _ h1
      obtain ⟨p2, hp2⟩ := leafPaths_extend _ _ _ _ h2
      rw [hp1, hp2, List.append_assoc, List.append_assoc] at hpre
      have := (List.prefix_append_right_inj code).mp hpre
      simp only [List.cons_append, List.nil_append] at this
      exact absurd (List.cons_prefix_cons.mp this).1 (by decide)
    · exact ihr _ _ _ _ _ h1 h2 hpre

/-- Claim C7 (confirmed): for every input symbol sequence, the code table
produced by traversing the Huffman tree built from its histogram (appending
`0` for left, `1` for right, recording codes only at leaves) contains no code
that is a prefix of another code of a different symbol in the same table. -/
theorem huffman_code_table_prefix_free {T : Type} [LinearOrder T]
    (data : List T) (t : HuffmanNode T)
    (ht : build_huffman_tree (build_histogram data) = some t)
    (s₁ s₂ : T) (c₁ c₂ : List ℕ)
    (h1 : (s₁, c₁) ∈ generate_codes t [] [])
    (h2 : (s₂, c₂) ∈ generate_codes t [] [])
    (hne : s₁ ≠ s₂) : ¬ c₁ <+: c₂ := by
  intro hpre
  have m1 := (mem_generate_codes t [] [] s₁ c₁ h1).resolve_right (by simp)
  have m2 := (mem_generate_codes t [] [] s₂ c₂ h2).resolve_right (by simp)
  have heq := leafPaths_prefix_eq t [] s₁ s₂ c₁ c₂ m1 m2 hpre
  exact hne (congrArg Prod.fst heq)

/-- Witness for `huffman_code_table_prefix_free` on the stream `[0, 1]`. -/
theorem huffman_code_table_prefix_free_witness :
    build_huffman_tree (build_histogram [0, 1]) =
      some (HuffmanNode.internal (.leaf 0 1) (.leaf 1 1)) ∧
    ((0 : ℕ), [(0 : ℕ)]) ∈
      generate_codes (HuffmanNode.internal (.leaf 0 1) (.leaf 1 1)) [] [] ∧
    ((1 : ℕ), [(1 : ℕ)]) ∈
      generate_codes (HuffmanNode.internal (.leaf 0 1) (.leaf 1 1)) [] [] ∧
    ¬ [(0 : ℕ)] <+: [(1 : ℕ)] :=
  ⟨by decide, by decide, by decide,
    huffman_code_table_prefix_free [0, 1]
      (HuffmanNode.internal (.leaf 0 1) (.leaf 1 1)) (by decide) 0 1 [0] [1]
      (by decide) (by decide) (by decide)⟩

/-! ### Degenerate single-symbol alphabet (claim C8) -/

theorem build_histogram_all_eq {T : Type} [LinearOrder T] (c : T) :
    ∀ (data : List T) (n : ℕ), (∀ x ∈ data, x = c) →
      data.foldl (fun h v => histInsert v h) [(c, n)] = [(c, n + data.length)] := by
  intro data
  induction data with
  | nil => intro n _; simp
  | cons d rest ih =>
    intro n hall
    have hd : d = c := hall d (by simp)
    subst hd
    have : histInsert d [(d, n)] = [(d, n + 1)] := by simp [histInsert]
    simp only [List.foldl_cons, this]
    rw [ih (n + 1) (fun x hx => hall x (by simp [hx]))]
    have harith : n + 1 + rest.length = n + (rest.length + 1) := by omega
    rw [List.length_cons, harith]

theorem build_histogram_const {T : Type} [LinearOrder T] (c : T) (data : List T)
    (hne : data ≠ []) (hall : ∀ x ∈ data, x = c) :
    build_histogram data = [(c, data.length)] := by
  obtain ⟨d, rest, rfl⟩ := List.exists_cons_of_ne_nil hne
  have hd : d = c := hall d (by simp)
  subst hd
  unfold build_histogram
  have h0 : histInsert d ([] : List (T × ℕ)) = [(d, 1)] := by simp [histInsert]
  simp only [List.foldl_cons, h0]
  rw [build_histogram_all_eq d rest 1 (fun x hx => hall x (by simp [hx]))]
  have harith : 1 + rest.length = rest.length + 1 := by omega
  rw [List.length_cons, harith]

theorem build_huffman_tree_single {T : Type} [DecidableEq T] (c : T) (n : ℕ) :
    build_huffman_tree [(c, n)] = some (.leaf c n) := by
  simp [build_huffman_tree, huffLoop, heapPop, eraseFirst]

theorem huffman_encode_foldl_const {T : Type} [DecidableEq T] (c : T) :
    ∀ (data : List T) (res : List ℕ), (∀ x ∈ data, x = c) →
      data.foldl
        (fun result byte =>
          match mapGet [(c, ([] : List ℕ))] byte with
          | some code => result ++ code
          | none => result)
        res = res := by
  intro data
  induction data with
  | nil => intro res _; rfl
  | cons d rest ih =>
    intro res hall
    have hd : d = c := hall d (by simp)
    subst hd
    simp only [List.foldl_cons]
    have : mapGet [(d, ([] : List ℕ))] d = some [] := by simp [mapGet]
    rw [show (match mapGet [(d, ([] : List ℕ))] d with
        | some code => res ++ code
        | none => res) = res by rw [this]; simp]
    exact ih res (fun x hx => hall x (by simp [hx]))

/-- Claim C8 (confirmed): for every non-empty input whose symbols are all
equal, the Huffman tree is the single `Leaf` for that symbol (no `Internal`
node), its generated code is the empty bit sequence, and `huffman_encode`
returns the empty bit vector — zero bits per symbol. -/
theorem huffman_single_symbol {T : Type} [LinearOrder T] (c : T) (data : List T)
    (hne : data ≠ []) (hall : ∀ x ∈ data, x = c) :
    build_huffman_tree (build_histogram data) = some (.leaf c data.length) ∧
    generate_codes (HuffmanNode.leaf c data.length) [] [] = [(c, [])] ∧
    huffman_encode data = some [] := by
  have hb := build_histogram_const c data hne hall
  refine ⟨by rw [hb]; exact build_huffman_tree_single c data.length, rfl, ?_⟩
  unfold huffman_encode
  rw [hb, build_huffman_tree_single c data.length]
  exact congrArg some (huffman_encode_foldl_const c data [] hall)

/-- Witness for `huffman_single_symbol` on the stream `[5, 5, 5]`. -/
theorem huffman_single_symbol_witness :
    build_huffman_tree (build_histogram [5, 5, 5]) = some (.leaf (5 : ℕ) 3) ∧
    generate_codes (HuffmanNode.leaf (5 : ℕ) 3) [] [] = [(5, [])] ∧
    huffman_encode [(5 : ℕ), 5, 5] = some [] := by
  have h := huffman_single_symbol (5 : ℕ) [5, 5, 5] (by decide) (by decide)
  simpa using h

/-! ### Round trip of the unpacked signed codec (claim C10) -/

theorem testBit_one_eq (i : ℕ) : Nat.testBit 1 i = decide (i = 0) := by
  cases i with
  | zero => rfl
  | succ n => simp [Nat.testBit_succ]

/-- Recomposing the high bit of an index-`b` field with the low `b` bits. -/
theorem high_bit_lor_mod (r b : ℕ) :
    (((r >>> b) &&& 1) <<< b) ||| r % 2 ^ b = r % 2 ^ (b + 1) := by
  apply Nat.eq_of_testBit_eq
  intro i
  simp only [Nat.testBit_lor, Nat.testBit_shiftLeft, Nat.testBit_and,
    Nat.testBit_shiftRight, Nat.testBit_mod_two_pow, testBit_one_eq]
  rcases lt_trichotomy i b with h | h | h
  · simp [h, Nat.lt_succ_of_lt h, Nat.not_le_of_lt h]
  · subst h
    simp
  · have h1 : ¬ i < b := by omega
    have h2 : ¬ i < b + 1 := by omega
    have h3 : ¬ (i - b) = 0 := by omega
    simp [h1, h2, h3]

theorem bWidthGo_pow : ∀ (fuel b k : ℕ), b ≤ k → k ≤ b + fuel →
    bWidthGo fuel b (2 ^ k) = k := by
  intro fuel
  induction fuel with
  | zero =>
    intro b k h1 h2
    simp only [bWidthGo]
    omega
  | succ f ih =>
    intro b k h1 h2
    simp only [bWidthGo, Nat.one_shiftLeft]
    by_cases h : 2 ^ b < 2 ^ k
    · rw [if_pos h]
      have hbk : b < k := (Nat.pow_lt_pow_iff_right (by omega)).mp h
      exact ih (b + 1) k (by omega) (by omega)
    · rw [if_neg h]
      have hkb : k ≤ b := by
        by_contra hc
        exact h (Nat.pow_lt_pow_right (by omega) (by omega))
      omega

/-- The `b` loop computes `k` from `m = 2^k` with its call-site fuel. -/
theorem bWidth_two_pow (k : ℕ) : bWidth (2 ^ k) = k :=
  bWidthGo_pow (2 ^ k + 1) 0 k (Nat.zero_le k)
    (by have := Nat.lt_two_pow k; omega)

/-- The quotient scan of `custom_decode` consumes exactly the unary field. -/
theorem customQScan_replicate :
    ∀ (q : ℕ) (rest : List ℕ) (acc : ℕ),
      customQScan (List.replicate q 0 ++ 1 :: rest) acc = some (acc + q, rest) := by
  intro q
  induction q with
  | zero =>
    intro rest acc
    simp [customQScan]
  | succ n ih =>
    intro rest acc
    rw [show List.replicate (n + 1) 0 ++ 1 :: rest
        = 0 :: (List.replicate n 0 ++ 1 :: rest) from rfl]
    rw [show customQScan (0 :: (List.replicate n 0 ++ 1 :: rest)) acc
        = customQScan (List.replicate n 0 ++ 1 :: rest) (acc + 1) from rfl]
    rw [ih rest (acc + 1)]
    have harith : acc + 1 + n = acc + (n + 1) := by omega
    rw [harith]

/-- The remainder read of `custom_decode` recovers the low `b` bits written by
`binBits` and leaves the tail untouched. -/
theorem customReadR_binBits :
    ∀ (b acc r : ℕ) (tail : List ℕ),
      customReadR acc b (binBits r b ++ tail) = some (acc ||| r % 2 ^ b, tail) := by
  intro b
  induction b with
  | zero =>
    intro acc r tail
    simp [binBits, customReadR, Nat.mod_one]
  | succ n ih =>
    intro acc r tail
    rw [show binBits r (n + 1) ++ tail
        = ((r >>> n) &&& 1) :: (binBits r n ++ tail) from rfl]
    rw [show customReadR acc (n + 1) (((r >>> n) &&& 1) :: (binBits r n ++ tail))
        = customReadR (acc ||| ((r >>> n) &&& 1) <<< n) n (binBits r n ++ tail) from rfl]
    rw [ih (acc ||| ((r >>> n) &&& 1) <<< n) r tail, Nat.lor_assoc, high_bit_lor_mod]

/-- One unfolding step of the `custom_decode` main loop. -/
theorem customDecodeGo_succ (m b fuel sbit : ℕ) (rest : List ℕ)
    (acc : List CustomPixel) :
    customDecodeGo m b (fuel + 1) (sbit :: rest) acc =
      match customQScan rest 0 with
      | none => none
      | some (q, rest1) =>
        match customReadR 0 b rest1 with
        | none => none
        | some (r0, rest2) =>
          customDecodeGo m b fuel rest2
            (acc ++ [⟨sbit == 1, q * m + (if r0 ≥ m then r0 - m else r0)⟩]) := rfl

/-- The `custom_decode` loop inverts the per-pixel encoding, one pixel per
iteration, for any power-of-two `m = 2^k` and any fuel that dominates the
pixel count. -/
theorem customDecodeGo_encode (k : ℕ) :
    ∀ (data : List CustomPixel) (fuel : ℕ) (acc : List CustomPixel),
      data.length < fuel →
      customDecodeGo (2 ^ k) k fuel
        ((data.map (customEncodeSym (2 ^ k) k)).flatten) acc
        = some (acc ++ data) := by
  intro data
  induction data with
  | nil =>
    intro fuel acc hf
    cases fuel with
    | zero => simp at hf
    | succ f => simp [customDecodeGo]
  | cons p rest ih =>
    intro fuel acc hf
    cases fuel with
    | zero => simp at hf
    | succ f =>
      have hm : 0 < 2 ^ k := Nat.pow_pos (by omega)
      have hr : p.value % 2 ^ k < 2 ^ k := Nat.mod_lt _ hm
      simp only [List.map_cons, List.flatten_cons, customEncodeSym, if_pos hr,
        List.cons_append, List.append_assoc]
      rw [customDecodeGo_succ]
      rw [customQScan_replicate (p.value / 2 ^ k) _ 0]
      simp only [Nat.zero_add]
      rw [customReadR_binBits]
      simp only [Nat.zero_or, Nat.mod_eq_of_lt hr]
      rw [if_neg (by omega : ¬ p.value % 2 ^ k ≥ 2 ^ k)]
      have hpix : (⟨(cond p.sign 1 0) == 1,
          p.value / 2 ^ k * 2 ^ k + p.value % 2 ^ k⟩ : CustomPixel) = p := by
        obtain ⟨s, v⟩ := p
        cases s <;> simp [Nat.div_add_mod']
      rw [hpix]
      rw [ih f (acc ++ [p]) (by simp only [List.length_cons] at hf; omega)]
      simp

/-- Each encoded pixel contributes at least its sign bit, so the pixel count
never exceeds the bit count of the encoding. -/
theorem length_le_encoded_length (m k : ℕ) (data : List CustomPixel) :
    data.length ≤ ((data.map (customEncodeSym m k)).flatten).length := by
  induction data with
  | nil => simp
  | cons p rest ih =>
    simp only [List.map_cons, List.flatten_cons, List.length_append,
      List.length_cons]
    have h1 : 1 ≤ (customEncodeSym m k p).length := by
      simp [customEncodeSym]
    omega

/-- Claim C10 (confirmed): the unpacked signed codec round-trips exactly,
including the sign channel — for every power-of-two `m = 2^k ≥ 1` and every
sequence of `CustomPixel` values, `custom_decode (custom_encode_inner data m) m`
returns the original sequence: same length, and every element keeps both its
magnitude and its sign flag, including the sign flag of elements with
magnitude `0`. -/
theorem custom_codec_roundtrip (k : ℕ) (data : List CustomPixel) :
    custom_decode (custom_encode_inner data (2 ^ k)) (2 ^ k) = some data := by
  unfold custom_decode custom_encode_inner
  rw [bWidth_two_pow]
  have hlen : data.length <
      ((data.map (customEncodeSym (2 ^ k) (bWidth (2 ^ k)))).flatten).length + 1 := by
    have := length_le_encoded_length (2 ^ k) (bWidth (2 ^ k)) data
    omega
  rw [bWidth_two_pow] at hlen
  simpa using customDecodeGo_encode k data _ [] hlen

/-- Sanity check against the repository's own unit test
`test_golomb_encode_2`: a single `21` at `m = 8` packs to `0b00110100`. -/
theorem golomb_encode_matches_repo_test2 :
    golomb_encode_inner [21] 8 = [0b00110100] := by decide

/-- Sanity check: on a bitstream that is not a whole number of bytes the
decoder does invert the encoder (the padding zeros are consumed by the final
quotient scan, which runs off the end before finding a terminator), so the
round-trip failure proved about claim C1 is specific to byte-aligned encodings. -/
theorem golomb_roundtrip_byte_unaligned_example :
    golomb_decode 8 (golomb_encode_inner [21, 21, 21] 8) = some [21, 21, 21] := by
  decide

end EET51
